import Mathlib

/-!
Shallow embedding of the email-scraping core of the repository:
  * `EmailScraper` (server/src/scrapeEmailsFromSite.ts): the email regex
    scanner, exclusion filtering, the retry loop `processSite`, the
    configuration defaults and the lazily created singleton
    `getEmailScraper`.
  * the batched URL processor (the unnamed module exporting
    `scrapeEmailsFromUrl`, `runWithConcurrency`, `processUrlBatch`).

Machinery: pure functions are translated directly; the JS regex
`([a-zA-Z0-9._%+-]+@[a-zA-Z0-9.-]+\.[a-zA-Z]{2,})` with the global flag is
implemented as a character-level scanner with the same greedy/backtracking
semantics; the asynchronous concurrency of `runWithConcurrency` is
modelled as a transition system whose nondeterminism is the order in
which in-flight workers complete.
-/

/-! ## Email pattern scanner (EMAIL_REGEX, both modules) -/

/-- Characters allowed in the local part: `[a-zA-Z0-9._%+-]`. -/
def isLocalChar (c : Char) : Bool :=
  c.isAlphanum || c == '.' || c == '_' || c == '%' || c == '+' || c == '-'

/-- Characters allowed in the domain before the final dot: `[a-zA-Z0-9.-]`. -/
def isDomainChar (c : Char) : Bool :=
  c.isAlphanum || c == '.' || c == '-'

/-- Characters allowed in the final label: `[a-zA-Z]`. -/
def isTldChar (c : Char) : Bool :=
  c.isAlpha

/-- Try to place the final dot of the domain at index `j` of the maximal
domain-character run `d`: requires `d[j] = '.'` followed by a greedy run of
two or more alphabetic characters.  Returns the matched domain characters
together with the number of characters of `d` consumed. -/
def tryDot (d : List Char) (j : Nat) : Option (List Char × Nat) :=
  match d.drop j with
  | '.' :: rest =>
    let tld := rest.takeWhile isTldChar
    if 2 ≤ tld.length then some (d.take j ++ '.' :: tld, j + 1 + tld.length) else none
  | _ => none

/-- Greedy backtracking over the position of the final dot: the largest
index `j ≥ 1` admitting a valid dot wins (the `[a-zA-Z0-9.-]+` part is
greedy, shrinking only as far as needed). -/
def largestDot (d : List Char) : Nat → Option (List Char × Nat)
  | 0 => none
  | j + 1 =>
    match tryDot d (j + 1) with
    | some r => some r
    | none => largestDot d j

/-- Attempt to match the email regex at the head of `cs`, returning the
matched characters and the remaining input after the match. -/
def matchEmailAt (cs : List Char) : Option (List Char × List Char) :=
  let l := cs.takeWhile isLocalChar
  if l.isEmpty then none
  else
    match cs.drop l.length with
    | '@' :: r2 =>
      let d := r2.takeWhile isDomainChar
      match largestDot d (d.length - 1) with
      | some (dm, consumed) => some (l ++ '@' :: dm, r2.drop consumed)
      | none => none
    | _ => none

/-- Global scan: find successive non-overlapping matches, resuming after
each match and advancing one character on failure (the behaviour of
`String.prototype.match` with a global regex).  `fuel` bounds recursion and
is instantiated with the input length, which always suffices because every
step consumes at least one character. -/
def scanAux : Nat → List Char → List (List Char)
  | 0, _ => []
  | _, [] => []
  | fuel + 1, c :: cs =>
    match matchEmailAt (c :: cs) with
    | some (m, rest) => m :: scanAux fuel rest
    | none => scanAux fuel cs

/-- `s.match(EMAIL_REGEX) || []`: the list of matches of the email regex. -/
def scanEmails (s : String) : List String :=
  (scanAux s.data.length s.data).map (fun cs => String.mk cs)

/-! ## Small string/list utilities mirroring JS built-ins -/

/-- Whether `pat` occurs as a contiguous substring of `s`
(JS `String.prototype.includes`). -/
def containsSub (s pat : List Char) : Bool :=
  match s with
  | [] => pat.isEmpty
  | _ :: rest => pat.isPrefixOf s || containsSub rest pat

/-- JS `String.prototype.toLowerCase` on the character sequence of a
string (ASCII case mapping). -/
def jsToLower (s : String) : List Char :=
  s.data.map Char.toLower

/-- Deduplication keeping first occurrences, the iteration order of a JS
`Set` built from a list (`[...new Set(l)]`). `seen` accumulates the
elements already emitted. -/
def dedupGo (seen : List String) : List String → List String
  | [] => []
  | x :: xs => if seen.contains x then dedupGo seen xs else x :: dedupGo (x :: seen) xs

/-- `[...new Set(l)]`. -/
def dedupKeepFirst (l : List String) : List String :=
  dedupGo [] l

/-! ## EmailScraper (server/src/scrapeEmailsFromSite.ts) -/

/-- The built-in exclusion substrings `EMAIL_EXCLUSIONS`. -/
def EMAIL_EXCLUSIONS : List String :=
  [".png", ".jpg", ".gif", ".jpeg", ".webp",
   "example.com", "domain.com", "yourdomain",
   "@example", "@test", "@sample",
   "email@", "user@"]

/-- `EmailScraper.extractEmails`: match the email regex, deduplicate the
matches verbatim via a `Set`, then drop candidates lacking `@` or
containing any configured exclusion substring case-insensitively. -/
def EmailScraper.extractEmails (excludePatterns : List String) (html : String) : List String :=
  let ms := scanEmails html
  (dedupKeepFirst ms).filter (fun email =>
    email.data.contains '@' &&
      excludePatterns.all (fun pattern =>
        !containsSub (jsToLower email) (jsToLower pattern)))

/-- The part of `scrapeEmailsFromUrl`'s module named `extractEmails`:
filter matches (must contain `@`, must not end in `.png` or `.jpg`),
then deduplicate via a `Set`. -/
def extractEmails (text : String) : List String :=
  let ms := scanEmails text
  let filtered := ms.filter (fun email =>
    email.data.contains '@' && !(".png".data.isSuffixOf email.data) &&
      !(".jpg".data.isSuffixOf email.data))
  dedupKeepFirst filtered

/-! ## Fetch attempts and the retry loop `EmailScraper.processSite` -/

/-- How a single fetch attempt that did not resolve to a response failed
(the promise rejected): the per-attempt timeout fired, a transport error
occurred, or the shared cancellation signal was asserted. -/
inductive FailKind
  | timeout
  | networkError (cause : String)
  | cancelled
deriving DecidableEq

/-- The outcome of one invocation of `fetchWithTimeout`: either a resolved
`Response` (any status) or a rejection. -/
inductive AttemptOutcome
  | response (status : Nat) (body : String)
  | failure (kind : FailKind)
deriving DecidableEq

/-- `Response.ok`: status in the 2xx range. -/
def jsOk (status : Nat) : Bool :=
  200 ≤ status && status ≤ 299

/-- The `error.message` produced when an attempt rejects. -/
def failMessage : FailKind → String
  | .timeout => "This operation was aborted"
  | .networkError cause => cause
  | .cancelled => "This operation was aborted"

/-- The `error.message` caught by `processSite`'s `catch` for a failed
attempt: a non-2xx response raises `HTTP error <status>` (line 89), a
rejection propagates its own message. -/
def attemptMessage : AttemptOutcome → String
  | .response status _ => "HTTP error " ++ toString status
  | .failure k => failMessage k

/-- The body of an attempt when it did not throw inside the `try`
(i.e. the response resolved with `response.ok`); `none` when the attempt
ends in the `catch` block. -/
def okBody : AttemptOutcome → Option String
  | .response status body => if jsOk status then some body else none
  | .failure _ => none

/-- A retryable failure in the spec's taxonomy: `Timeout` or
`NetworkError`. -/
def isTransient : AttemptOutcome → Bool
  | .failure .timeout => true
  | .failure (.networkError _) => true
  | _ => false

/-- The `ScrapingResult` record of scrapeEmailsFromSite.ts. -/
structure ScrapingResult where
  url : String
  emails : List String
  success : Bool
  error : Option String
deriving DecidableEq

/-- The `while (attempts <= maxRetries)` loop of
`EmailScraper.processSite`.  `fetch` gives the outcome of each successive
fetch invocation (indexed by invocation count), `attempts` and `calls`
mirror the loop counter and the number of fetch invocations so far.  The
second component of the result counts total fetch invocations.  `fuel` is
structural recursion fuel; `processSite` passes `maxRetries + 1`, which
suffices since each iteration increments `attempts`, and the fuel-exhausted
result coincides with the source's unreachable fall-through return at line
111. -/
def EmailScraper.processSiteGo (url : String) (excl : List String) (maxRetries : Nat)
    (fetch : Nat → AttemptOutcome) : Nat → Nat → Nat → ScrapingResult × Nat
  | 0, _, calls =>
    ({ url := url, emails := [], success := false,
       error := some "Maximum retries exceeded" }, calls)
  | fuel + 1, attempts, calls =>
    if attempts ≤ maxRetries then
      match okBody (fetch calls) with
      | some body =>
        ({ url := url, emails := EmailScraper.extractEmails excl body,
           success := true, error := none }, calls + 1)
      | none =>
        if maxRetries < attempts + 1 then
          ({ url := url, emails := [], success := false,
             error := some (attemptMessage (fetch calls)) }, calls + 1)
        else
          EmailScraper.processSiteGo url excl maxRetries fetch fuel (attempts + 1) (calls + 1)
    else
      ({ url := url, emails := [], success := false,
         error := some "Maximum retries exceeded" }, calls)

/-- `EmailScraper.processSite`, paired with the number of fetch
invocations it performs. -/
def EmailScraper.processSite (url : String) (excl : List String) (maxRetries : Nat)
    (fetch : Nat → AttemptOutcome) : ScrapingResult × Nat :=
  EmailScraper.processSiteGo url excl maxRetries fetch (maxRetries + 1) 0 0

/-! ## `scrapeEmailsFromUrl` (single-attempt pipeline of the batch module) -/

/-- The observable behaviour of `safeFetch` for one URL: `none` when
`safeFetch` returned `null` (timeout, abort or network error — all caught
inside `safeFetch`), otherwise the response's status and its body, where
the body is `none` when reading `res.text()` failed mid-stream. -/
structure NetResponse where
  status : Nat
  body : Option String
deriving DecidableEq

/-- `scrapeEmailsFromUrl`, paired with a flag recording whether
`safeFetch` was invoked at all.  The URL-scheme guard at lines 93–96
returns `[]` before any fetch; a `null` fetch result, a non-2xx status and
a failed body read each yield `[]`; otherwise the emails extracted from
the body are returned (the metadata `scrape` call swallows its errors and
does not affect the result). -/
def scrapeEmailsFromUrl (url : String) (net : Option NetResponse) : List String × Bool :=
  if url.data.isEmpty || !("http".data.isPrefixOf url.data) then ([], false)
  else
    match net with
    | none => ([], true)
    | some res =>
      if !(jsOk res.status) then ([], true)
      else
        match res.body with
        | none => ([], true)
        | some htmlText => (extractEmails htmlText, true)

/-! ## `runWithConcurrency` as a transition system

The function keeps three pieces of mutable state: `index` (next unstarted
item), `activeCount`, and the `results` array.  Each admitted item runs
`runNext`: it takes `currentIndex = index++`, increments `activeCount`,
awaits the jitter delay and the handler, pushes the handler's result
(skipped when the handler throws — the `catch` only logs), then in
`finally` decrements `activeCount` and calls `runNext` again, which either
admits the next item or, when no items remain and `activeCount` is zero,
resolves the promise.  The model state carries the set of in-flight item
indices; a transition is the completion of one in-flight worker, the only
source of nondeterminism (completion order). -/

/-- State of one `runWithConcurrency` run over `n` items. -/
structure RunnerState where
  started : Nat
  inFlight : List Nat
  done : List Nat
  results : List Nat
  resolved : Bool
deriving DecidableEq

/-- The state after the synchronous start-up loop: `Math.min(limit, n)`
workers admitted (items `0 .. min limit n - 1`), nothing completed, the
promise unresolved.  With `n = 0` the loop body never runs, so `resolve`
is never invoked at start-up. -/
def initRunner (n limit : Nat) : RunnerState :=
  { started := min limit n
    inFlight := List.range (min limit n)
    done := []
    results := []
    resolved := false }

/-- Completion of in-flight worker `i` (`throws i` tells whether the
handler rejected for item `i`): record completion, push the result unless
the handler threw, then `runNext` — admit the next unstarted item if one
remains, otherwise resolve when no worker is left active.  Completing a
worker that is not in flight changes nothing. -/
def stepRunner (n : Nat) (throws : Nat → Bool) (i : Nat) (s : RunnerState) : RunnerState :=
  if s.inFlight.contains i then
    let inFlight' := s.inFlight.erase i
    let done' := s.done ++ [i]
    let results' := s.results ++ (if throws i then [] else [i])
    if s.started < n then
      { started := s.started + 1
        inFlight := inFlight' ++ [s.started]
        done := done'
        results := results'
        resolved := s.resolved }
    else
      { started := s.started
        inFlight := inFlight'
        done := done'
        results := results'
        resolved := s.resolved || inFlight'.isEmpty }
  else s

/-- A whole run: the initial state followed by a sequence of completion
events. -/
def runWithConcurrency (n limit : Nat) (throws : Nat → Bool) (choices : List Nat) :
    RunnerState :=
  choices.foldl (fun s i => stepRunner n throws i s) (initRunner n limit)

/-! ## `processUrlBatch` (the batch orchestrator) -/

/-- `LinkState` of the batch module. -/
structure LinkState where
  title : String
  link : String
deriving DecidableEq

/-- `ScrapedResult` of the batch module. -/
structure ScrapedResult where
  title : String
  link : String
  emails : List String
deriving DecidableEq

/-- The `for (let i = 0; i < links.length; i += batchSize)` loop of
`processUrlBatch`.  `runBatch k batch` is the list of results
`runWithConcurrency` delivered for the `k`-th chunk (an oracle, since
completion order is nondeterministic).  Each iteration slices the chunk
`links.slice(i, i + batchSize)`, appends the chunk's results that carry at
least one email to the accumulator, and sleeps between batches exactly
when `i + batchSize < links.length`; the model returns the aggregated
results, the processed chunks in order, and the number of inter-batch
delays.  `fuel` (instantiated with `links.length + 1`) bounds the loop
structurally; it suffices whenever `batchSize ≥ 1`. -/
def processUrlBatchGo (links : List LinkState) (batchSize : Nat)
    (runBatch : Nat → List LinkState → List ScrapedResult) :
    Nat → Nat → Nat → List ScrapedResult → List (List LinkState) → Nat →
    List ScrapedResult × List (List LinkState) × Nat
  | 0, _, _, acc, chunks, delays => (acc, chunks, delays)
  | fuel + 1, i, k, acc, chunks, delays =>
    if i < links.length then
      let batch := (links.drop i).take batchSize
      let acc' := acc ++ (runBatch k batch).filter (fun r => decide (0 < r.emails.length))
      let delays' := if i + batchSize < links.length then delays + 1 else delays
      processUrlBatchGo links batchSize runBatch fuel (i + batchSize) (k + 1) acc'
        (chunks ++ [batch]) delays'
    else (acc, chunks, delays)

/-- `processUrlBatch`: aggregated results, chunks processed in order, and
number of inter-batch delays. -/
def processUrlBatch (links : List LinkState) (batchSize : Nat)
    (runBatch : Nat → List LinkState → List ScrapedResult) :
    List ScrapedResult × List (List LinkState) × Nat :=
  processUrlBatchGo links batchSize runBatch (links.length + 1) 0 0 [] [] 0

/-- The consecutive chunks `links.slice(i, i + batchSize)` taken by the
loop, as a standalone list-of-chunks function (fuelled like the loop
itself). -/
def chunkListGo (batchSize : Nat) : Nat → List LinkState → List (List LinkState)
  | 0, _ => []
  | _, [] => []
  | fuel + 1, l => l.take batchSize :: chunkListGo batchSize fuel (l.drop batchSize)

/-- All chunks of `l` of size `batchSize` (last possibly shorter). -/
def chunkList (batchSize : Nat) (l : List LinkState) : List (List LinkState) :=
  chunkListGo batchSize l.length l

/-- The concatenation of the per-chunk runner outputs, chunk index
threaded through — every per-target result the orchestrator sees. -/
def producedFrom (runBatch : Nat → List LinkState → List ScrapedResult) (k : Nat) :
    List (List LinkState) → List ScrapedResult
  | [] => []
  | c :: cs => runBatch k c ++ producedFrom runBatch (k + 1) cs

/-! ## Configuration defaults and the `getEmailScraper` singleton -/

/-- The optional `EmailScraperConfig` record. -/
structure EmailScraperConfig where
  concurrency : Option Nat
  timeout : Option Nat
  maxRetries : Option Nat
  retryDelay : Option Nat
  excludePatterns : Option (List String)
  userAgent : Option String
deriving DecidableEq

/-- The resolved `Required<EmailScraperConfig>` held by an `EmailScraper`
instance. -/
structure ResolvedConfig where
  concurrency : Nat
  timeout : Nat
  maxRetries : Nat
  retryDelay : Nat
  excludePatterns : List String
  userAgent : String
deriving DecidableEq

/-- JS `x || d` for an optional number: `undefined` and the falsy `0`
both fall back to the default. -/
def jsOrNat : Option Nat → Nat → Nat
  | none, d => d
  | some 0, d => d
  | some n, _ => n

/-- JS `x || d` for an optional string: `undefined` and the falsy empty
string fall back to the default. -/
def jsOrStr : Option String → String → String
  | none, d => d
  | some "", d => d
  | some s, _ => s

/-- JS `x || []` for an optional array (arrays are always truthy). -/
def jsOrList : Option (List String) → List String
  | none => []
  | some l => l

/-- The `EmailScraper` constructor: apply the defaults of lines 39–46. -/
def EmailScraper.create (config : EmailScraperConfig) : ResolvedConfig :=
  { concurrency := jsOrNat config.concurrency 10
    timeout := jsOrNat config.timeout 10000
    maxRetries := jsOrNat config.maxRetries 2
    retryDelay := jsOrNat config.retryDelay 1000
    excludePatterns := EMAIL_EXCLUSIONS ++ jsOrList config.excludePatterns
    userAgent := jsOrStr config.userAgent "Mozilla/5.0 (compatible; EmailScraper/1.0)" }

/-- `getEmailScraper` acting on the module-level `scraperInstance`
variable: create the instance on first call, return the existing one (and
ignore the argument) afterwards.  Returns the scraper handed to the caller
together with the new value of `scraperInstance`. -/
def getEmailScraper (scraperInstance : Option ResolvedConfig) (config : EmailScraperConfig) :
    ResolvedConfig × Option ResolvedConfig :=
  match scraperInstance with
  | none =>
    let s := EmailScraper.create config
    (s, some s)
  | some s => (s, some s)

/-- Invariant of the `runWithConcurrency` transition system: in-flight and
completed item indices are distinct and disjoint, together they are
exactly the admitted items `0 .. started - 1`, admission never exceeds `n`
items or `limit` simultaneous workers, resolution implies all items were
admitted and none is still active, and the results array holds exactly the
completed items whose handler did not throw, in completion order. -/
structure RunnerInv (n limit : Nat) (throws : Nat → Bool) (s : RunnerState) : Prop where
  nodupIn : s.inFlight.Nodup
  nodupDone : s.done.Nodup
  disj : ∀ i, i ∈ s.done → i ∉ s.inFlight
  cover : ∀ i, (i ∈ s.done ∨ i ∈ s.inFlight) ↔ i < s.started
  startedLe : s.started ≤ n
  flightBound : s.inFlight.length ≤ limit
  resolvedDone : s.resolved = true → s.started = n ∧ s.inFlight = []
  resultsSpec : s.results = s.done.filter (fun i => !throws i)

/-! # Theorems -/

/-! ## Singleton configuration (`getEmailScraper`) -/

/-- C10: the configuration passed to `getEmailScraper` takes effect only
on the first call: the first call builds the instance from its
configuration, and a subsequent call returns the already-created instance
unchanged, silently ignoring any configuration it is given. -/
theorem getEmailScraper_first_config_wins (c1 c2 : EmailScraperConfig) :
    (getEmailScraper none c1).1 = EmailScraper.create c1 ∧
    (getEmailScraper (getEmailScraper none c1).2 c2).1 = EmailScraper.create c1 ∧
    (getEmailScraper (getEmailScraper none c1).2 c2).2 = (getEmailScraper none c1).2 :=
  ⟨rfl, rfl, rfl⟩

/-! ## Fail-fast URL validation (`scrapeEmailsFromUrl`) -/

/-- C8: a target whose URL does not begin with the recognized scheme
prefix `http` is rejected before any fetch: `scrapeEmailsFromUrl` returns
the zero-signal result without invoking `safeFetch`, whatever the network
would have answered. -/
theorem scrapeEmailsFromUrl_rejects_invalid_scheme (url : String) (net : Option NetResponse)
    (h : "http".data.isPrefixOf url.data = false) :
    scrapeEmailsFromUrl url net = ([], false) := by
  simp [scrapeEmailsFromUrl, h]

/-- Witness for C8 at a concrete unsupported-scheme URL with a live
network behind it. -/
theorem scrapeEmailsFromUrl_rejects_invalid_scheme_witness :
    scrapeEmailsFromUrl "ftp://contact.example" (some ⟨200, some "a@bb.co"⟩) = ([], false) :=
  scrapeEmailsFromUrl_rejects_invalid_scheme "ftp://contact.example"
    (some ⟨200, some "a@bb.co"⟩) (by decide)

/-! ## The retry loop -/

/-- When every attempt fails (lands in the `catch` block), the loop of
`processSite` runs `maxRetries - attempts + 1` further fetch invocations
and returns the failed result carrying the message of the last caught
error. -/
theorem processSiteGo_allFail (url : String) (excl : List String) (maxRetries : Nat)
    (fetch : Nat → AttemptOutcome) (hfail : ∀ i, okBody (fetch i) = none) :
    ∀ fuel attempts calls, attempts ≤ maxRetries → maxRetries - attempts < fuel →
      EmailScraper.processSiteGo url excl maxRetries fetch fuel attempts calls =
        ({ url := url, emails := [], success := false,
           error := some (attemptMessage (fetch (calls + (maxRetries - attempts)))) },
         calls + (maxRetries - attempts) + 1) := by
  intro fuel
  induction fuel with
  | zero => intro attempts calls _ h2; omega
  | succ fuel ih =>
    intro attempts calls h1 h2
    simp only [EmailScraper.processSiteGo, if_pos h1, hfail calls]
    by_cases hl : maxRetries < attempts + 1
    · have he : maxRetries - attempts = 0 := by omega
      simp [hl, he]
    · rw [if_neg hl, ih (attempts + 1) (calls + 1) (by omega) (by omega)]
      have he : calls + 1 + (maxRetries - (attempts + 1)) = calls + (maxRetries - attempts) := by
        omega
      rw [he]

/-- C1 counterexample: the claim predicts that an attempt ending in an
HTTP error status is terminal, so a fetcher always answering 404 should be
invoked exactly once.  In the code the `HTTP error` exception lands in the
same `catch` as transient failures: with `maxRetries = 2` the fetcher is
invoked 3 times, not once, before the failed result is returned. -/
theorem processSite_retries_httpError_counterexample :
    (EmailScraper.processSite "https://x.test" EMAIL_EXCLUSIONS 2
      (fun _ => AttemptOutcome.response 404 "")).2 = 3 ∧
    ¬ ((EmailScraper.processSite "https://x.test" EMAIL_EXCLUSIONS 2
      (fun _ => AttemptOutcome.response 404 "")).2 = 1) ∧
    (EmailScraper.processSite "https://x.test" EMAIL_EXCLUSIONS 2
      (fun _ => AttemptOutcome.response 404 "")).1.success = false := by
  decide

/-- C1 amended: no failure kind is terminal for `processSite` — HTTP
error statuses and cancellations are caught and retried exactly like
timeouts and network errors.  Whenever every attempt fails, the fetcher is
invoked `maxRetries + 1` times and only then is the failed (zero-signal)
result returned, carrying the last error's message. -/
theorem processSite_retries_every_failure (url : String) (excl : List String)
    (maxRetries : Nat) (fetch : Nat → AttemptOutcome)
    (hfail : ∀ i, okBody (fetch i) = none) :
    EmailScraper.processSite url excl maxRetries fetch =
      ({ url := url, emails := [], success := false,
         error := some (attemptMessage (fetch maxRetries)) }, maxRetries + 1) := by
  unfold EmailScraper.processSite
  rw [processSiteGo_allFail url excl maxRetries fetch hfail (maxRetries + 1) 0 0
    (by omega) (by omega)]
  simp

/-- Witness for the amended C1: an always-404 fetcher with
`maxRetries = 2` is invoked 3 times; a cancelled attempt is likewise
retried. -/
theorem processSite_retries_every_failure_witness :
    EmailScraper.processSite "https://x.test" [] 2
      (fun _ => AttemptOutcome.response 404 "irrelevant") =
      ({ url := "https://x.test", emails := [], success := false,
         error := some (attemptMessage (AttemptOutcome.response 404 "irrelevant")) }, 3) ∧
    EmailScraper.processSite "https://y.test" [] 1
      (fun _ => AttemptOutcome.failure FailKind.cancelled) =
      ({ url := "https://y.test", emails := [], success := false,
         error := some (attemptMessage (AttemptOutcome.failure FailKind.cancelled)) }, 2) := by
  constructor
  · rw [processSite_retries_every_failure "https://x.test" [] 2
      (fun _ => AttemptOutcome.response 404 "irrelevant") (fun _ => rfl)]
  · rw [processSite_retries_every_failure "https://y.test" [] 1
      (fun _ => AttemptOutcome.failure FailKind.cancelled) (fun _ => rfl)]

/-- C2: when every fetch attempt fails with a transient failure (timeout
or network error), `processSite` invokes the fetcher exactly
`maxRetries + 1` times and returns `success = false`, no signals, and the
error set to the last failure's classification. -/
theorem processSite_transient_exhaustion (url : String) (excl : List String)
    (maxRetries : Nat) (fetch : Nat → AttemptOutcome)
    (h : ∀ i, isTransient (fetch i) = true) :
    EmailScraper.processSite url excl maxRetries fetch =
      ({ url := url, emails := [], success := false,
         error := some (attemptMessage (fetch maxRetries)) }, maxRetries + 1) := by
  have hfail : ∀ i, okBody (fetch i) = none := by
    intro i
    have hi := h i
    cases hf : fetch i with
    | response status body => rw [hf] at hi; simp [isTransient] at hi
    | failure k => rfl
  unfold EmailScraper.processSite
  rw [processSiteGo_allFail url excl maxRetries fetch hfail (maxRetries + 1) 0 0
    (by omega) (by omega)]
  simp

/-- Witness for C2: an always-timing-out fetcher with `maxRetries = 2` is
invoked exactly 3 times and yields the failed, zero-signal result. -/
theorem processSite_transient_exhaustion_witness :
    EmailScraper.processSite "https://slow.test" [] 2
      (fun _ => AttemptOutcome.failure FailKind.timeout) =
      ({ url := "https://slow.test", emails := [], success := false,
         error := some (attemptMessage (AttemptOutcome.failure FailKind.timeout)) }, 3) := by
  rw [processSite_transient_exhaustion "https://slow.test" [] 2
    (fun _ => AttemptOutcome.failure FailKind.timeout) (fun _ => rfl)]

/-! ## Extractor deduplication and exclusion filtering -/

/-- Emitted elements of `dedupGo` are pairwise distinct and avoid the
`seen` accumulator. -/
theorem dedupGo_nodup (l : List String) :
    ∀ seen, (dedupGo seen l).Nodup ∧ ∀ x ∈ dedupGo seen l, x ∉ seen := by
  induction l with
  | nil => intro seen; simp [dedupGo]
  | cons x xs ih =>
    intro seen
    by_cases h : seen.contains x
    · rw [dedupGo, if_pos h]
      exact ih seen
    · rw [dedupGo, if_neg h]
      obtain ⟨hnd, hmem⟩ := ih (x :: seen)
      refine ⟨List.nodup_cons.mpr ⟨fun hx => hmem x hx (List.mem_cons_self x seen), hnd⟩, ?_⟩
      intro y hy hyseen
      rcases List.mem_cons.mp hy with rfl | hy'
      · exact h (List.elem_eq_true_of_mem hyseen)
      · exact hmem y hy' (List.mem_cons_of_mem x hyseen)

/-- `[...new Set(l)]` has no duplicate entries. -/
theorem dedupKeepFirst_nodup (l : List String) : (dedupKeepFirst l).Nodup :=
  (dedupGo_nodup l []).1

/-- C3 counterexample: the claim asserts that `extract` never returns two
entries equal under case-insensitive comparison, but deduplication is by
exact string (`new Set`): a body containing `A@bb.co` and `a@bb.co`
yields both, and they are equal once lower-cased. -/
theorem extractEmails_case_insensitive_dup_counterexample :
    EmailScraper.extractEmails EMAIL_EXCLUSIONS "A@bb.co a@bb.co" = ["A@bb.co", "a@bb.co"] ∧
    jsToLower "A@bb.co" = jsToLower "a@bb.co" ∧
    ¬ ((EmailScraper.extractEmails EMAIL_EXCLUSIONS "A@bb.co a@bb.co").map jsToLower).Nodup := by
  refine ⟨by decide, by decide, ?_⟩
  intro h
  have := List.nodup_cons.mp h
  exact this.1 (by decide)

/-- C3 amended: `extract` returns no two entries equal as exact strings
(deduplication is verbatim, not case-insensitive), and no returned entry
contains any configured exclusion substring under case-insensitive
comparison. -/
theorem extractEmails_nodup_and_exclusions (excludePatterns : List String) (html : String) :
    (EmailScraper.extractEmails excludePatterns html).Nodup ∧
    (EmailScraper.extractEmails excludePatterns html).all (fun email =>
      excludePatterns.all (fun pattern =>
        !containsSub (jsToLower email) (jsToLower pattern))) = true := by
  constructor
  · exact (dedupKeepFirst_nodup (scanEmails html)).filter _
  · rw [List.all_eq_true]
    intro e he
    have hf := List.of_mem_filter he
    exact ((Bool.and_eq_true _ _).mp hf).2

/-! ## Orchestrator chunking (`processUrlBatch`) -/

/-- `chunkListGo` ignores its fuel as long as the fuel covers the list
length. -/
theorem chunkListGo_fuel_congr (b : Nat) (hb : 0 < b) :
    ∀ f1 f2 (l : List LinkState), l.length ≤ f1 → l.length ≤ f2 →
      chunkListGo b f1 l = chunkListGo b f2 l := by
  intro f1
  induction f1 with
  | zero =>
    intro f2 l h1 _
    have hl : l = [] := List.eq_nil_of_length_eq_zero (by omega)
    subst hl
    cases f2 <;> rfl
  | succ f1 ih =>
    intro f2 l h1 h2
    cases l with
    | nil => cases f2 <;> rfl
    | cons x xs =>
      cases f2 with
      | zero => simp at h2
      | succ f2 =>
        simp only [chunkListGo]
        congr 1
        apply ih
        · have hd := List.length_drop b (x :: xs)
          simp only [List.length_cons] at h1 hd ⊢
          omega
        · have hd := List.length_drop b (x :: xs)
          simp only [List.length_cons] at h2 hd ⊢
          omega

/-- The empty list has no chunks. -/
theorem chunkList_nil (b : Nat) : chunkList b [] = [] := rfl

/-- Unfolding the chunking of a nonempty list: the first `batchSize`
elements, then the chunks of the rest. -/
theorem chunkList_cons (b : Nat) (hb : 0 < b) (l : List LinkState) (hl : l ≠ []) :
    chunkList b l = l.take b :: chunkList b (l.drop b) := by
  cases l with
  | nil => exact absurd rfl hl
  | cons x xs =>
    show chunkListGo b (xs.length + 1) (x :: xs) = _
    simp only [chunkListGo]
    congr 1
    apply chunkListGo_fuel_congr b hb
    · have hd := List.length_drop b (x :: xs)
      simp only [List.length_cons] at hd ⊢
      omega
    · exact Nat.le_refl _

/-- The chunks concatenate back to the original list. -/
theorem chunkList_flatten (b : Nat) (hb : 0 < b) :
    ∀ n (l : List LinkState), l.length ≤ n → (chunkList b l).flatten = l := by
  intro n
  induction n with
  | zero =>
    intro l h
    have hl : l = [] := List.eq_nil_of_length_eq_zero (by omega)
    subst hl
    rfl
  | succ n ih =>
    intro l h
    by_cases hl : l = []
    · subst hl; rfl
    · rw [chunkList_cons b hb l hl, List.flatten_cons,
        ih (l.drop b) (by
          have hd := List.length_drop b l
          have hp : 0 < l.length := List.length_pos.mpr hl
          omega)]
      exact List.take_append_drop b l

/-- Every chunk has at most `batchSize` elements. -/
theorem chunkList_size_le (b : Nat) (hb : 0 < b) :
    ∀ n (l : List LinkState), l.length ≤ n → ∀ c ∈ chunkList b l, c.length ≤ b := by
  intro n
  induction n with
  | zero =>
    intro l h c hc
    have hl : l = [] := List.eq_nil_of_length_eq_zero (by omega)
    subst hl
    simp [chunkList_nil] at hc
  | succ n ih =>
    intro l h c hc
    by_cases hl : l = []
    · subst hl; simp [chunkList_nil] at hc
    · rw [chunkList_cons b hb l hl] at hc
      rcases List.mem_cons.mp hc with rfl | hc'
      · have ht := List.length_take b l
        omega
      · exact ih (l.drop b)
          (by have hd := List.length_drop b l
              have hp : 0 < l.length := List.length_pos.mpr hl
              omega) c hc'

/-- Every chunk except possibly the last has exactly `batchSize`
elements. -/
theorem chunkList_dropLast_size (b : Nat) (hb : 0 < b) :
    ∀ n (l : List LinkState), l.length ≤ n →
      ∀ c ∈ (chunkList b l).dropLast, c.length = b := by
  intro n
  induction n with
  | zero =>
    intro l h c hc
    have hl : l = [] := List.eq_nil_of_length_eq_zero (by omega)
    subst hl
    simp [chunkList_nil] at hc
  | succ n ih =>
    intro l h c hc
    by_cases hl : l = []
    · subst hl; simp [chunkList_nil] at hc
    · rw [chunkList_cons b hb l hl] at hc
      by_cases hd : l.drop b = []
      · rw [hd, chunkList_nil] at hc
        simp at hc
      · have hne : chunkList b (l.drop b) ≠ [] := by
          rw [chunkList_cons b hb _ hd]
          exact List.cons_ne_nil _ _
        rw [List.dropLast_cons_of_ne_nil hne] at hc
        rcases List.mem_cons.mp hc with rfl | hc'
        · have hp : 0 < (l.drop b).length := List.length_pos.mpr hd
          have hld := List.length_drop b l
          have ht := List.length_take b l
          omega
        · exact ih (l.drop b)
            (by have hld := List.length_drop b l
                have hp : 0 < l.length := List.length_pos.mpr hl
                omega) c hc'

/-- Specification of the orchestrator loop from an arbitrary loop state:
it processes exactly the chunks of the not-yet-visited suffix, appends the
signal-bearing results of each chunk in order, and sleeps once per
non-final chunk. -/
theorem processUrlBatchGo_spec (links : List LinkState) (batchSize : Nat)
    (runBatch : Nat → List LinkState → List ScrapedResult) (hb : 0 < batchSize) :
    ∀ fuel i k acc chunks delays, links.length - i ≤ fuel →
      processUrlBatchGo links batchSize runBatch fuel i k acc chunks delays =
        (acc ++ (producedFrom runBatch k (chunkList batchSize (links.drop i))).filter
            (fun r => decide (0 < r.emails.length)),
         chunks ++ chunkList batchSize (links.drop i),
         delays + ((chunkList batchSize (links.drop i)).length - 1)) := by
  intro fuel
  induction fuel with
  | zero =>
    intro i k acc chunks delays h
    have hd : links.drop i = [] := List.drop_eq_nil_of_le (by omega)
    rw [hd, chunkList_nil]
    have hi : ¬ i < links.length := by omega
    simp [processUrlBatchGo, hi, producedFrom]
  | succ fuel ih =>
    intro i k acc chunks delays h
    by_cases hi : i < links.length
    · have hd : links.drop i ≠ [] := by
        intro hcon
        have hld := List.length_drop i links
        rw [hcon] at hld
        simp at hld
        omega
      rw [chunkList_cons batchSize hb _ hd]
      have hdd : (links.drop i).drop batchSize = links.drop (i + batchSize) := by
        rw [List.drop_drop]
      simp only [processUrlBatchGo, if_pos hi]
      rw [ih (i + batchSize) (k + 1) _ _ _ (by omega), hdd, Prod.mk.injEq, Prod.mk.injEq]
      refine ⟨?_, ?_, ?_⟩
      · simp only [producedFrom, List.filter_append, List.append_assoc]
      · simp only [List.append_assoc, List.singleton_append]
      · by_cases hlast : i + batchSize < links.length
        · have hd2 : links.drop (i + batchSize) ≠ [] := by
            intro hcon
            have hld := List.length_drop (i + batchSize) links
            rw [hcon] at hld
            simp at hld
            omega
          have hne : chunkList batchSize (links.drop (i + batchSize)) ≠ [] := by
            rw [chunkList_cons batchSize hb _ hd2]
            exact List.cons_ne_nil _ _
          have hpos : 0 < (chunkList batchSize (links.drop (i + batchSize))).length :=
            List.length_pos.mpr hne
          simp only [if_pos hlast, List.length_cons]
          omega
        · have hd2 : links.drop (i + batchSize) = [] :=
            List.drop_eq_nil_of_le (by omega)
          rw [hd2, chunkList_nil]
          simp [hlast]
    · have hd : links.drop i = [] := List.drop_eq_nil_of_le (by omega)
      rw [hd, chunkList_nil]
      simp [processUrlBatchGo, hi, producedFrom]

/-- C6: the orchestrator splits the input into the consecutive chunks of
size `batchSize` (the chunks concatenate back to the input, each has at
most `batchSize` elements, and every chunk but the last exactly
`batchSize`), processes them in that order, and sleeps between consecutive
chunks but not after the final one (one fewer delay than chunks). -/
theorem processUrlBatch_chunking (links : List LinkState) (batchSize : Nat)
    (runBatch : Nat → List LinkState → List ScrapedResult) (hb : 0 < batchSize) :
    (processUrlBatch links batchSize runBatch).2.1 = chunkList batchSize links ∧
    (chunkList batchSize links).flatten = links ∧
    (∀ c ∈ chunkList batchSize links, c.length ≤ batchSize) ∧
    (∀ c ∈ (chunkList batchSize links).dropLast, c.length = batchSize) ∧
    (processUrlBatch links batchSize runBatch).2.2 =
      (chunkList batchSize links).length - 1 := by
  have hspec := processUrlBatchGo_spec links batchSize runBatch hb
    (links.length + 1) 0 0 [] [] 0 (by omega)
  rw [List.drop_zero] at hspec
  unfold processUrlBatch
  rw [hspec]
  simp only [List.nil_append, Nat.zero_add]
  refine ⟨trivial, chunkList_flatten batchSize hb links.length links (Nat.le_refl _),
    chunkList_size_le batchSize hb links.length links (Nat.le_refl _),
    chunkList_dropLast_size batchSize hb links.length links (Nat.le_refl _), trivial⟩

/-- Witness for C6: five targets with `batchSize = 2` give chunks of
sizes 2, 2, 1 in input order and exactly two inter-chunk delays. -/
theorem processUrlBatch_chunking_witness :
    (processUrlBatch [⟨"a", "u1"⟩, ⟨"b", "u2"⟩, ⟨"c", "u3"⟩, ⟨"d", "u4"⟩, ⟨"e", "u5"⟩] 2
        (fun _ _ => [])).2.1 =
      [[⟨"a", "u1"⟩, ⟨"b", "u2"⟩], [⟨"c", "u3"⟩, ⟨"d", "u4"⟩], [⟨"e", "u5"⟩]] ∧
    (processUrlBatch [⟨"a", "u1"⟩, ⟨"b", "u2"⟩, ⟨"c", "u3"⟩, ⟨"d", "u4"⟩, ⟨"e", "u5"⟩] 2
        (fun _ _ => [])).2.2 = 2 ∧
    ([⟨"e", "u5"⟩] : List LinkState).length ≤ 2 ∧
    ([⟨"a", "u1"⟩, ⟨"b", "u2"⟩] : List LinkState).length = 2 := by
  have h := processUrlBatch_chunking
    [⟨"a", "u1"⟩, ⟨"b", "u2"⟩, ⟨"c", "u3"⟩, ⟨"d", "u4"⟩, ⟨"e", "u5"⟩] 2
    (fun _ _ => []) (by decide)
  refine ⟨?_, ?_, ?_, ?_⟩
  · rw [h.1]; decide
  · rw [h.2.2.2.2]; decide
  · exact h.2.2.1 [⟨"e", "u5"⟩] (by decide)
  · exact h.2.2.2.1 [⟨"a", "u1"⟩, ⟨"b", "u2"⟩] (by decide)

/-- C7: the aggregated output of the orchestrator is exactly the
per-target results delivered by the per-chunk runs that carry at least one
signal; a zero-signal result never appears in it. -/
theorem processUrlBatch_keeps_only_signal_bearing (links : List LinkState) (batchSize : Nat)
    (runBatch : Nat → List LinkState → List ScrapedResult) (hb : 0 < batchSize) :
    (processUrlBatch links batchSize runBatch).1 =
      (producedFrom runBatch 0 (chunkList batchSize links)).filter
        (fun r => decide (0 < r.emails.length)) := by
  have hspec := processUrlBatchGo_spec links batchSize runBatch hb
    (links.length + 1) 0 0 [] [] 0 (by omega)
  rw [List.drop_zero] at hspec
  unfold processUrlBatch
  rw [hspec]
  simp only [List.nil_append, Nat.zero_add]

/-- Witness for C7: with two targets of which only one yields an email,
the report contains exactly the signal-bearing result. -/
theorem processUrlBatch_keeps_only_signal_bearing_witness :
    (processUrlBatch [⟨"b", "u1"⟩, ⟨"c", "u2"⟩] 2
        (fun _ c => c.map (fun l =>
          ⟨l.title, l.link, if l.title == "c" then ["x@y.co"] else []⟩))).1 =
      [⟨"c", "u2", ["x@y.co"]⟩] := by
  rw [processUrlBatch_keeps_only_signal_bearing [⟨"b", "u1"⟩, ⟨"c", "u2"⟩] 2
    (fun _ c => c.map (fun l =>
      ⟨l.title, l.link, if l.title == "c" then ["x@y.co"] else []⟩)) (by decide)]
  decide

/-! ## Runner invariants (`runWithConcurrency`) -/

/-- The start-up state satisfies the runner invariant. -/
theorem runnerInv_init (n limit : Nat) (throws : Nat → Bool) :
    RunnerInv n limit throws (initRunner n limit) := by
  refine { nodupIn := List.nodup_range _, nodupDone := List.nodup_nil,
           disj := ?_, cover := ?_, startedLe := Nat.min_le_right _ _,
           flightBound := ?_, resolvedDone := ?_, resultsSpec := rfl }
  · intro i hi
    simp [initRunner] at hi
  · intro i
    simp [initRunner, List.mem_range]
  · simp only [initRunner, List.length_range]
    exact Nat.min_le_left _ _
  · intro hcon
    simp [initRunner] at hcon

/-- One completion step preserves the runner invariant. -/
theorem runnerInv_step (n limit : Nat) (throws : Nat → Bool) (i : Nat) (s : RunnerState)
    (h : RunnerInv n limit throws s) : RunnerInv n limit throws (stepRunner n throws i s) := by
  by_cases hc : s.inFlight.contains i = true
  · have hmem : i ∈ s.inFlight := List.mem_of_elem_eq_true hc
    have hidone : i ∉ s.done := fun hd => h.disj i hd hmem
    have hilt : i < s.started := (h.cover i).mp (Or.inr hmem)
    have herasenodup : (s.inFlight.erase i).Nodup := h.nodupIn.erase i
    have hmemerase : ∀ a, a ∈ s.inFlight.erase i ↔ a ≠ i ∧ a ∈ s.inFlight :=
      fun a => h.nodupIn.mem_erase_iff
    have hlenerase : (s.inFlight.erase i).length + 1 = s.inFlight.length :=
      List.length_erase_add_one hmem
    have hdonenodup : (s.done ++ [i]).Nodup := by
      refine List.Nodup.append h.nodupDone (List.nodup_singleton i) ?_
      intro a ha hb
      rw [List.mem_singleton] at hb
      subst hb
      exact hidone ha
    have hresults : s.results ++ (if throws i then [] else [i]) =
        (s.done ++ [i]).filter (fun j => !throws j) := by
      rw [List.filter_append, h.resultsSpec]
      congr 1
      by_cases ht : throws i = true <;> simp [ht]
    simp only [stepRunner]
    rw [if_pos hc]
    by_cases hs : s.started < n
    · rw [if_pos hs]
      refine { nodupIn := ?_, nodupDone := hdonenodup, disj := ?_, cover := ?_,
               startedLe := by show s.started + 1 ≤ n; omega, flightBound := ?_,
               resolvedDone := ?_, resultsSpec := hresults }
      · refine List.Nodup.append herasenodup (List.nodup_singleton _) ?_
        intro a ha hb
        rw [List.mem_singleton] at hb
        subst hb
        have : s.started ∈ s.inFlight := ((hmemerase _).mp ha).2
        have : s.started < s.started := (h.cover _).mp (Or.inr this)
        omega
      · intro a ha hb
        rw [List.mem_append, List.mem_singleton] at ha hb
        rcases ha with ha | hai
        · rcases hb with hb | hst
          · exact h.disj a ha (((hmemerase a).mp hb).2)
          · have := (h.cover a).mp (Or.inl ha)
            omega
        · rcases hb with hb | hst
          · exact ((hmemerase _).mp hb).1 hai
          · omega
      · intro a
        simp only [List.mem_append, List.mem_singleton, hmemerase a]
        constructor
        · rintro ((ha | hai) | (⟨-, hf⟩ | hst))
          · have := (h.cover a).mp (Or.inl ha)
            omega
          · omega
          · have := (h.cover a).mp (Or.inr hf)
            omega
          · omega
        · intro ha
          by_cases hae : a = s.started
          · exact Or.inr (Or.inr hae)
          · have : a < s.started := by omega
            rcases (h.cover a).mpr this with hd | hf
            · exact Or.inl (Or.inl hd)
            · by_cases hai : a = i
              · exact Or.inl (Or.inr hai)
              · exact Or.inr (Or.inl ⟨hai, hf⟩)
      · rw [List.length_append, List.length_singleton]
        have := h.flightBound
        omega
      · intro hcon
        obtain ⟨-, hfl⟩ := h.resolvedDone hcon
        rw [hfl] at hmem
        simp at hmem
    · rw [if_neg hs]
      refine { nodupIn := herasenodup, nodupDone := hdonenodup, disj := ?_, cover := ?_,
               startedLe := h.startedLe, flightBound := ?_, resolvedDone := ?_,
               resultsSpec := hresults }
      · intro a ha hb
        rw [List.mem_append, List.mem_singleton] at ha
        rcases ha with ha | rfl
        · exact h.disj a ha (((hmemerase a).mp hb).2)
        · exact ((hmemerase _).mp hb).1 rfl
      · intro a
        simp only [List.mem_append, List.mem_singleton, hmemerase a]
        constructor
        · rintro ((ha | hai) | ⟨-, hf⟩)
          · exact (h.cover a).mp (Or.inl ha)
          · omega
          · exact (h.cover a).mp (Or.inr hf)
        · intro ha
          rcases (h.cover a).mpr ha with hd | hf
          · exact Or.inl (Or.inl hd)
          · by_cases hai : a = i
            · exact Or.inl (Or.inr hai)
            · exact Or.inr ⟨hai, hf⟩
      · show (s.inFlight.erase i).length ≤ limit
        have := h.flightBound
        omega
      · intro hcon
        rcases (Bool.or_eq_true _ _).mp hcon with hr | he
        · obtain ⟨-, hfl⟩ := h.resolvedDone hr
          rw [hfl] at hmem
          simp at hmem
        · have hnil : s.inFlight.erase i = [] := List.isEmpty_iff.mp he
          refine ⟨?_, hnil⟩
          show s.started = n
          have := h.startedLe
          omega
  · simp only [stepRunner]
    rw [if_neg hc]
    exact h

/-- The invariant holds after any sequence of completion events. -/
theorem runnerInv_run (n limit : Nat) (throws : Nat → Bool) (choices : List Nat) :
    RunnerInv n limit throws (runWithConcurrency n limit throws choices) := by
  have hfold : ∀ (cs : List Nat) (s : RunnerState), RunnerInv n limit throws s →
      RunnerInv n limit throws (cs.foldl (fun t i => stepRunner n throws i t) s) := by
    intro cs
    induction cs with
    | nil => intro s hs; exact hs
    | cons c cs ih =>
      intro s hs
      exact ih _ (runnerInv_step n limit throws c s hs)
  exact hfold choices _ (runnerInv_init n limit throws)

/-- Admission is completion-driven: completing any in-flight worker while
unstarted items remain immediately admits the next unstarted item. -/
theorem stepRunner_admits (n : Nat) (throws : Nat → Bool) (i : Nat) (s : RunnerState)
    (hmem : i ∈ s.inFlight) (hs : s.started < n) :
    (stepRunner n throws i s).started = s.started + 1 ∧
    s.started ∈ (stepRunner n throws i s).inFlight := by
  have hc : s.inFlight.contains i = true := List.elem_eq_true_of_mem hmem
  simp only [stepRunner]
  rw [if_pos hc, if_pos hs]
  exact ⟨rfl, by simp⟩

/-- C5: `runWithConcurrency` keeps at most `limit` workers in flight in
every reachable state, and admission is sliding-window: whenever an
in-flight worker completes while unstarted targets remain, the next
unstarted target is admitted by that very completion (no static
partitioning into sub-batches). -/
theorem runWithConcurrency_bounded_and_sliding (n limit : Nat) (throws : Nat → Bool)
    (choices : List Nat) :
    (runWithConcurrency n limit throws choices).inFlight.length ≤ limit ∧
    (∀ i, i ∈ (runWithConcurrency n limit throws choices).inFlight →
      (runWithConcurrency n limit throws choices).started < n →
      (stepRunner n throws i (runWithConcurrency n limit throws choices)).started =
        (runWithConcurrency n limit throws choices).started + 1 ∧
      (runWithConcurrency n limit throws choices).started ∈
        (stepRunner n throws i (runWithConcurrency n limit throws choices)).inFlight) := by
  refine ⟨(runnerInv_run n limit throws choices).flightBound, ?_⟩
  intro i hmem hs
  exact stepRunner_admits n throws i _ hmem hs

/-- Witness for C5 with `n = 2`, `limit = 1`: one worker in flight, and
its completion admits target 1 at once. -/
theorem runWithConcurrency_bounded_and_sliding_witness :
    (runWithConcurrency 2 1 (fun _ => false) []).inFlight.length ≤ 1 ∧
    (stepRunner 2 (fun _ => false) 0 (runWithConcurrency 2 1 (fun _ => false) [])).started =
      (runWithConcurrency 2 1 (fun _ => false) []).started + 1 ∧
    (runWithConcurrency 2 1 (fun _ => false) []).started ∈
      (stepRunner 2 (fun _ => false) 0 (runWithConcurrency 2 1 (fun _ => false) [])).inFlight := by
  have h := runWithConcurrency_bounded_and_sliding 2 1 (fun _ => false) []
  exact ⟨h.1, h.2 0 (by decide) (by decide)⟩

/-- C4 counterexample: the claim promises exactly one result per target
even when workers throw, but a worker whose handler rejects pushes
nothing: with two targets whose first handler throws, the completed run
holds one result, not two (the runner does keep going and resolves). -/
theorem runWithConcurrency_drops_throwing_counterexample :
    (runWithConcurrency 2 10 (fun i => i == 0) [0, 1]).resolved = true ∧
    (runWithConcurrency 2 10 (fun i => i == 0) [0, 1]).results.length = 1 ∧
    ¬ ((runWithConcurrency 2 10 (fun i => i == 0) [0, 1]).results.length = 2) := by
  decide

/-- C4 amended: in every completed run each target is completed exactly
once (the completion log is a permutation of the targets) and the runner
never crashes — a throwing worker is absorbed and remaining targets are
still admitted and completed — but the results array holds exactly the
targets whose worker did not throw, in completion order: the results of
throwing workers are dropped rather than recorded. -/
theorem runWithConcurrency_complete_run (n limit : Nat) (throws : Nat → Bool)
    (choices : List Nat)
    (hres : (runWithConcurrency n limit throws choices).resolved = true) :
    (runWithConcurrency n limit throws choices).done.Perm (List.range n) ∧
    (runWithConcurrency n limit throws choices).results =
      (runWithConcurrency n limit throws choices).done.filter (fun i => !throws i) := by
  have hinv := runnerInv_run n limit throws choices
  obtain ⟨hn, hfl⟩ := hinv.resolvedDone hres
  constructor
  · refine (List.perm_ext_iff_of_nodup hinv.nodupDone (List.nodup_range n)).mpr ?_
    intro a
    have hcov := hinv.cover a
    rw [hfl, hn] at hcov
    simp only [List.not_mem_nil, or_false] at hcov
    rw [List.mem_range]
    exact hcov
  · exact hinv.resultsSpec

/-- Witness for the amended C4: a completed two-target run whose first
worker throws — both targets complete, the throwing one leaves no
result. -/
theorem runWithConcurrency_complete_run_witness :
    (runWithConcurrency 2 10 (fun i => i == 0) [0, 1]).done.Perm (List.range 2) ∧
    (runWithConcurrency 2 10 (fun i => i == 0) [0, 1]).results =
      (runWithConcurrency 2 10 (fun i => i == 0) [0, 1]).done.filter
        (fun i => !(fun j => j == 0) i) :=
  runWithConcurrency_complete_run 2 10 (fun i => i == 0) [0, 1] (by decide)

/-- C9 (code behaviour at the failing input): on the empty target list no
initial worker is started, so no completion event can ever occur and the
promise is never resolved — the run state is stuck at the initial state
with `resolved = false` after any sequence of events. -/
theorem runWithConcurrency_empty_never_resolves (limit : Nat) (throws : Nat → Bool)
    (choices : List Nat) :
    runWithConcurrency 0 limit throws choices = initRunner 0 limit ∧
    (runWithConcurrency 0 limit throws choices).resolved = false := by
  have hstep : ∀ i, stepRunner 0 throws i (initRunner 0 limit) = initRunner 0 limit := by
    intro i
    have hfl : (initRunner 0 limit).inFlight = [] := by
      simp [initRunner]
    simp [stepRunner, hfl]
  have hfold : ∀ cs : List Nat,
      cs.foldl (fun t i => stepRunner 0 throws i t) (initRunner 0 limit) =
        initRunner 0 limit := by
    intro cs
    induction cs with
    | nil => rfl
    | cons c cs ih => rw [List.foldl_cons, hstep c, ih]
  have h1 : runWithConcurrency 0 limit throws choices = initRunner 0 limit := hfold choices
  exact ⟨h1, by rw [h1]; rfl⟩
